import Mathlib

/-!
Verification of the guitar-recognition logistic-regression notebooks.

The numeric code of the two notebooks is embedded shallowly: numpy arrays of
shape `(r, c)` become `Matrix (Fin r) (Fin c) ℝ`, Python floats become real
numbers (the source performs plain IEEE arithmetic with no stability
safeguards; the embedding uses exact real/rational arithmetic), and the
in-place loops of the source are written as the pure functions they compute.
-/

namespace GuitarLR

open Matrix

/-- The elementwise logistic function of the training notebook:
`def sigmoid(z): return 1 / (1 + np.exp(-z))`. -/
noncomputable def sigmoid (z : ℝ) : ℝ := 1 / (1 + Real.exp (-z))

/-- The forward pass of the training notebook:
`def predict(W, X, b): Z = np.dot(W.T, X) + b; return sigmoid(Z)`.
The scalar `b` is broadcast over the `1 × m` matrix `Z`. -/
noncomputable def predict {n m : ℕ} (W : Matrix (Fin n) (Fin 1) ℝ)
    (X : Matrix (Fin n) (Fin m) ℝ) (b : ℝ) : Matrix (Fin 1) (Fin m) ℝ :=
  fun i j => sigmoid ((Wᵀ * X) i j + b)

lemma sigmoid_pos (z : ℝ) : 0 < sigmoid z := by
  unfold sigmoid
  positivity

lemma sigmoid_lt_one (z : ℝ) : sigmoid z < 1 := by
  unfold sigmoid
  rw [div_lt_one (by positivity)]
  linarith [Real.exp_pos (-z)]

/-- C1: for every weight vector `W` of shape `(n,1)`, feature matrix `X` of
shape `(n,m)` and bias `b`, the forward pass returns the elementwise sigmoid
of `WᵀX + b` — an array of shape `(1,m)` (enforced by the type) — and every
entry lies strictly between `0` and `1`. -/
theorem predict_is_sigmoid_of_linear_score {n m : ℕ}
    (W : Matrix (Fin n) (Fin 1) ℝ) (X : Matrix (Fin n) (Fin m) ℝ) (b : ℝ)
    (i : Fin 1) (j : Fin m) :
    predict W X b i j = sigmoid ((∑ k, W k i * X k j) + b) ∧
      0 < predict W X b i j ∧ predict W X b i j < 1 := by
  refine ⟨?_, sigmoid_pos _, sigmoid_lt_one _⟩
  simp [predict, Matrix.mul_apply, Matrix.transpose_apply]

/-- The cross-entropy cost of the training notebook:
`def cost(Y, A): m = Y.shape[1]; loss = -Y * np.log(A) - (1 - Y) * np.log(1 - A);
return (1 / m) * np.sum(loss, axis=1)`.
The source returns a one-element array; the embedding returns that element. -/
noncomputable def cost {m : ℕ} (Y A : Matrix (Fin 1) (Fin m) ℝ) : ℝ :=
  (1 / (m : ℝ)) * ∑ j, (-(Y 0 j) * Real.log (A 0 j)
    - (1 - Y 0 j) * Real.log (1 - A 0 j))

/-- The weight gradient of the training notebook:
`def dw(X, A, Y): m = Y.shape[1]; return (1 / m) * np.dot(X, (A - Y).T)`. -/
noncomputable def dw {n m : ℕ} (X : Matrix (Fin n) (Fin m) ℝ)
    (A Y : Matrix (Fin 1) (Fin m) ℝ) : Matrix (Fin n) (Fin 1) ℝ :=
  (1 / (m : ℝ)) • (X * (A - Y)ᵀ)

/-- The bias gradient of the training notebook:
`def db(A, Y): m = Y.shape[1]; return (1 / m) * np.sum((A - Y), axis=1)`.
The source returns a one-element array; the embedding returns that element. -/
noncomputable def db {m : ℕ} (A Y : Matrix (Fin 1) (Fin m) ℝ) : ℝ :=
  (1 / (m : ℝ)) * ∑ j, (A - Y) 0 j

/-- C3: the gradient functions compute `dw(X,A,Y) = (1/m)·X·(A−Y)ᵀ`
(shape `(n,1)`, enforced by the type), entrywise
`(1/m)·Σⱼ Xᵢⱼ·(Aⱼ − Yⱼ)`, and `db(A,Y) = (1/m)·Σⱼ (Aⱼ − Yⱼ)`; as Lean
functions of their arguments they are pure and deterministic. -/
theorem dw_db_gradient_formulas {n m : ℕ} (X : Matrix (Fin n) (Fin m) ℝ)
    (A Y : Matrix (Fin 1) (Fin m) ℝ) (i : Fin n) :
    dw X A Y i 0 = (1 / (m : ℝ)) * ∑ j, X i j * (A 0 j - Y 0 j) ∧
      db A Y = (1 / (m : ℝ)) * ∑ j, (A 0 j - Y 0 j) := by
  constructor
  · simp [dw, Matrix.mul_apply, Matrix.transpose_apply, Matrix.sub_apply]
  · simp [db, Matrix.sub_apply]

lemma sigmoid_zero : sigmoid 0 = 1 / 2 := by
  simp [sigmoid, Real.exp_zero]
  norm_num

lemma predict_zero_weights {n m : ℕ} (X : Matrix (Fin n) (Fin m) ℝ)
    (i : Fin 1) (j : Fin m) : predict 0 X 0 i j = 1 / 2 := by
  simp [predict, Matrix.mul_apply, sigmoid_zero]

/-- C4: with all-zero weights and zero bias, each prediction is
`sigmoid 0 = 1/2`, so on any nonempty dataset with `{0,1}` labels the initial
cost is `ln 2`, whatever the features are. -/
theorem initial_cost_eq_log_two {n m : ℕ} (hm : 0 < m)
    (X : Matrix (Fin n) (Fin m) ℝ) (Y : Matrix (Fin 1) (Fin m) ℝ)
    (hY : ∀ j, Y 0 j = 0 ∨ Y 0 j = 1) :
    cost Y (predict 0 X 0) = Real.log 2 := by
  have hterm : ∀ j : Fin m,
      (-(Y 0 j) * Real.log (predict 0 X 0 0 j)
        - (1 - Y 0 j) * Real.log (1 - predict 0 X 0 0 j)) = Real.log 2 := by
    intro j
    rw [predict_zero_weights]
    have h12 : (1 : ℝ) - 1 / 2 = 1 / 2 := by norm_num
    have hlog : Real.log (1 / 2) = -Real.log 2 := by
      rw [one_div, Real.log_inv]
    rw [h12, hlog]
    ring
  rw [cost, Finset.sum_congr rfl (fun j _ => hterm j), Finset.sum_const,
    Finset.card_univ, Fintype.card_fin, nsmul_eq_mul]
  have hm0 : (m : ℝ) ≠ 0 := Nat.cast_ne_zero.mpr hm.ne'
  field_simp

/-- Witness for C4: a concrete one-example dataset with label `1` and
feature value `5` has initial cost exactly `ln 2`. -/
theorem initial_cost_eq_log_two_witness :
    cost ((fun _ _ => 1) : Matrix (Fin 1) (Fin 1) ℝ)
      (predict 0 ((fun _ _ => 5) : Matrix (Fin 1) (Fin 1) ℝ) 0)
      = Real.log 2 :=
  initial_cost_eq_log_two (by decide)
    ((fun _ _ => 5) : Matrix (Fin 1) (Fin 1) ℝ)
    ((fun _ _ => 1) : Matrix (Fin 1) (Fin 1) ℝ) (fun _ => Or.inr rfl)

/-- One iteration of the gradient-descent cell of the training notebook:
`A = predict(W, X_train, b)` then `W = W - learning_rate * _dw` and
`b = b - learning_rate * _db`. -/
noncomputable def gdStep {n m : ℕ} (η : ℝ) (X : Matrix (Fin n) (Fin m) ℝ)
    (Y : Matrix (Fin 1) (Fin m) ℝ) (p : Matrix (Fin n) (Fin 1) ℝ × ℝ) :
    Matrix (Fin n) (Fin 1) ℝ × ℝ :=
  let A := predict p.1 X p.2
  (p.1 - η • dw X A Y, p.2 - η * db A Y)

/-- The gradient-descent loop of the training notebook, started from
`W = np.zeros((n, 1))` and `b = 0` and iterated `k` times with learning
rate `η`; `Y` is the `1 × m` row `y_train.T` the source passes to the
cost and gradient functions. -/
noncomputable def gradientDescent {n m : ℕ} (η : ℝ)
    (X : Matrix (Fin n) (Fin m) ℝ) (Y : Matrix (Fin 1) (Fin m) ℝ) :
    ℕ → Matrix (Fin n) (Fin 1) ℝ × ℝ
  | 0 => (0, 0)
  | k + 1 => gdStep η X Y (gradientDescent η X Y k)

/-- C5: with learning rate `0` the gradient-descent loop never moves the
parameters: after any number of iterations the weights are still the zero
vector and the bias is still `0`, for every input `X` and labels `Y`. -/
theorem gradientDescent_zero_rate_fixed {n m : ℕ}
    (X : Matrix (Fin n) (Fin m) ℝ) (Y : Matrix (Fin 1) (Fin m) ℝ) (k : ℕ) :
    gradientDescent 0 X Y k = (0, 0) := by
  induction k with
  | zero => rfl
  | succ k ih => simp [gradientDescent, gdStep, ih]

/-- The thresholding function of the training notebook:
`def binarize(A): for i in range(A.shape[1]): A[0,i] = 1 if A[0,i] > 0.5 else 0;
return A`, written as the pure function the in-place loop computes on a
`1 × m` array. -/
noncomputable def binarize {m : ℕ} (A : Matrix (Fin 1) (Fin m) ℝ) :
    Matrix (Fin 1) (Fin m) ℝ :=
  fun i j => if A i j > 0.5 then 1 else 0

/-- C6: `binarize` maps each entry to `1` exactly when it is strictly
greater than `0.5` and to `0` otherwise, so an entry equal to `0.5` maps
to `0`; the output shape equals the input shape by the type. -/
theorem binarize_strict_threshold {m : ℕ} (A : Matrix (Fin 1) (Fin m) ℝ)
    (i : Fin 1) (j : Fin m) :
    (0.5 < A i j → binarize A i j = 1) ∧ (A i j ≤ 0.5 → binarize A i j = 0) := by
  constructor
  · intro h
    simp [binarize, h]
  · intro h
    simp [binarize, not_lt.mpr h]

/-- Witness for C6: an entry `0.7` binarizes to `1` and an entry exactly
`0.5` binarizes to `0`. -/
theorem binarize_strict_threshold_witness :
    binarize ((fun _ _ => 0.7) : Matrix (Fin 1) (Fin 1) ℝ) 0 0 = 1 ∧
      binarize ((fun _ _ => 0.5) : Matrix (Fin 1) (Fin 1) ℝ) 0 0 = 0 :=
  ⟨(binarize_strict_threshold (fun _ _ => 0.7) 0 0).1 (by norm_num),
    (binarize_strict_threshold (fun _ _ => 0.5) 0 0).2 (by norm_num)⟩

/-- C7: `binarize` is idempotent: applying it twice gives the same matrix
as applying it once. -/
theorem binarize_idempotent {m : ℕ} (A : Matrix (Fin 1) (Fin m) ℝ) :
    binarize (binarize A) = binarize A := by
  funext i j
  unfold binarize
  by_cases h : A i j > 0.5 <;> simp [h] <;> norm_num

/-- The accuracy printed by the evaluation cell of the training notebook:
`100 - np.mean(np.abs(y_predictions - y)) * 100`. There `y_predictions`
(from `binarize(predict(W, X, b))`) has shape `(1, m)` while `y` has shape
`(m, 1)`, so numpy broadcasting turns `y_predictions - y` into the `m × m`
matrix whose `(i, j)` entry is `y_predictions[0, j] - y[i, 0]`, and
`np.mean` averages all `m·m` entries. -/
noncomputable def accuracyReported {m : ℕ} (pred : Matrix (Fin 1) (Fin m) ℝ)
    (y : Matrix (Fin m) (Fin 1) ℝ) : ℝ :=
  100 - (∑ i, ∑ j, |pred 0 j - y i 0|) / (m * m) * 100

/-- The accuracy the spec describes, stated in the spec's words for
comparison with `accuracyReported`: `100 × (1 − mean(|predicted − actual|))`
with prediction `i` paired with label `i` and the mean taken over the `m`
examples. -/
noncomputable def accuracySpec {m : ℕ} (pred : Matrix (Fin 1) (Fin m) ℝ)
    (y : Matrix (Fin m) (Fin 1) ℝ) : ℝ :=
  100 * (1 - (∑ j, |pred 0 j - y j 0|) / m)

/-- C8: the evaluation cell does not compute the per-example accuracy the
spec describes. On two examples with binarized predictions `[1, 0]` and
true labels `[1, 0]` — every prediction correct — the code prints `50`
while the per-example formula gives `100`: the `(1,m)`-shaped predictions
minus the `(m,1)`-shaped labels broadcast to an `m × m` matrix, so the mean
runs over all prediction/label pairs instead of matching indices. -/
theorem accuracyReported_broadcasts_to_pairs :
    accuracyReported !![(1 : ℝ), 0] !![(1 : ℝ); 0] = 50 ∧
      accuracySpec !![(1 : ℝ), 0] !![(1 : ℝ); 0] = 100 := by
  constructor <;>
    norm_num [accuracyReported, accuracySpec, Fin.sum_univ_two]

/-- The IEEE-754 double nearest to the literal `0.7` of the preparation
notebook, as an exact rational: `0.7 · 2^53 = 6305039478318694.4` rounds to
the 53-bit significand `6305039478318694`. -/
def float07 : ℚ := 6305039478318694 / 2 ^ 53

/-- Round a rational to the nearest integer, ties to even — the rounding of
a significand in IEEE-754 round-to-nearest-even mode. -/
def rne (x : ℚ) : ℤ :=
  if x - (⌊x⌋ : ℚ) < 1 / 2 then ⌊x⌋
  else if 1 / 2 < x - (⌊x⌋ : ℚ) then ⌊x⌋ + 1
  else if ⌊x⌋ % 2 = 0 then ⌊x⌋ else ⌊x⌋ + 1

/-- Round a nonnegative rational to the nearest IEEE-754 double
(round-to-nearest-even, 53-bit significand): scale the value into
`[2^52, 2^53)` by its binary exponent, round the significand to the nearest
even-tied integer, and scale back. The dataset sizes of the source stay far
from overflow and subnormal range, where this is exact. -/
def roundDouble (q : ℚ) : ℚ :=
  if q = 0 then 0
  else (rne (q * 2 ^ (52 - Int.log 2 q)) : ℚ) * 2 ^ (Int.log 2 q - 52)

/-- The split size of the preparation notebook:
`training_examples_count = int(0.7 * images_count)` — the Python int
`images_count` converts exactly to a double, the product with the double
`0.7` rounds to the nearest double, and `int` truncates the nonnegative
result toward zero, i.e. takes its floor. -/
def trainingExamplesCount (imagesCount : ℕ) : ℕ :=
  ⌊roundDouble (float07 * imagesCount)⌋₊

/-- `test_examples_count = images_count - training_examples_count`. -/
def testExamplesCount (imagesCount : ℕ) : ℕ :=
  imagesCount - trainingExamplesCount imagesCount

/-- `np.split(xs, [k])` on the leading axis: the first `k` elements and
the rest, in order. -/
def npSplit {α : Type} (xs : List α) (k : ℕ) : List α × List α :=
  (xs.take k, xs.drop k)

lemma floor_le_rne (x : ℚ) : ⌊x⌋ ≤ rne x := by
  unfold rne
  split_ifs <;> omega

lemma rne_le (x : ℚ) : (rne x : ℚ) ≤ x + 1 / 2 := by
  have hf := Int.floor_le x
  unfold rne
  split_ifs with h1 h2 h3
  · linarith
  · rw [not_lt] at h1
    push_cast
    linarith
  · linarith
  · rw [not_lt] at h1
    push_cast
    linarith

lemma roundDouble_nonneg (q : ℚ) (hq : 0 ≤ q) : 0 ≤ roundDouble q := by
  unfold roundDouble
  split_ifs with h
  · exact le_refl 0
  · have hx : (0 : ℚ) ≤ q * 2 ^ (52 - Int.log 2 q) := by positivity
    have h0 : (0 : ℤ) ≤ rne (q * 2 ^ (52 - Int.log 2 q)) :=
      le_trans (Int.floor_nonneg.mpr hx) (floor_le_rne _)
    have h0q : (0 : ℚ) ≤ (rne (q * 2 ^ (52 - Int.log 2 q)) : ℚ) := by
      exact_mod_cast h0
    positivity

lemma roundDouble_le (q : ℚ) (hq : 0 < q) :
    roundDouble q ≤ q * (1 + 2 ^ (-53 : ℤ)) := by
  unfold roundDouble
  rw [if_neg hq.ne']
  have ha : (2 : ℚ) ^ (52 - Int.log 2 q) * 2 ^ (Int.log 2 q - 52) = 1 := by
    rw [← zpow_add₀ (by norm_num : (2 : ℚ) ≠ 0)]
    norm_num
  have hb : (1 / 2 : ℚ) * 2 ^ (Int.log 2 q - 52) = 2 ^ (Int.log 2 q - 53) := by
    rw [show (1 / 2 : ℚ) = 2 ^ (-1 : ℤ) by norm_num,
      ← zpow_add₀ (by norm_num : (2 : ℚ) ≠ 0)]
    congr 1
    ring
  have hlog : (2 : ℚ) ^ Int.log 2 q ≤ q := by
    have h := Int.zpow_log_le_self (b := 2) (r := q) (by norm_num) hq
    push_cast at h
    exact h
  have hc : (2 : ℚ) ^ (Int.log 2 q - 53) ≤ q * 2 ^ (-53 : ℤ) := by
    rw [show Int.log 2 q - 53 = Int.log 2 q + (-53 : ℤ) by ring,
      zpow_add₀ (by norm_num : (2 : ℚ) ≠ 0)]
    exact mul_le_mul_of_nonneg_right hlog (by positivity)
  have hmul := mul_le_mul_of_nonneg_right (rne_le (q * 2 ^ (52 - Int.log 2 q)))
    (le_of_lt (by positivity : (0 : ℚ) < 2 ^ (Int.log 2 q - 52)))
  calc (rne (q * 2 ^ (52 - Int.log 2 q)) : ℚ) * 2 ^ (Int.log 2 q - 52)
      ≤ (q * 2 ^ (52 - Int.log 2 q) + 1 / 2) * 2 ^ (Int.log 2 q - 52) := hmul
    _ = q * (2 ^ (52 - Int.log 2 q) * 2 ^ (Int.log 2 q - 52))
          + (1 / 2) * 2 ^ (Int.log 2 q - 52) := by ring
    _ = q + 2 ^ (Int.log 2 q - 53) := by rw [ha, hb, mul_one]
    _ ≤ q + q * 2 ^ (-53 : ℤ) := by linarith
    _ = q * (1 + 2 ^ (-53 : ℤ)) := by ring

lemma float07_augmented_lt_one : float07 * (1 + 2 ^ (-53 : ℤ)) < 1 := by
  rw [float07]
  norm_num

lemma trainingExamplesCount_le (N : ℕ) : trainingExamplesCount N ≤ N := by
  unfold trainingExamplesCount
  rcases Nat.eq_zero_or_pos N with h | h
  · subst h
    simp [roundDouble]
  · have hq : 0 < float07 * (N : ℚ) := by
      apply mul_pos
      · rw [float07]
        norm_num
      · exact_mod_cast h
    have h1 := roundDouble_le _ hq
    have h2 : float07 * (N : ℚ) * (1 + 2 ^ (-53 : ℤ))
        = (float07 * (1 + 2 ^ (-53 : ℤ))) * N := by ring
    have h3 : (float07 * (1 + 2 ^ (-53 : ℤ))) * (N : ℚ) < 1 * N :=
      mul_lt_mul_of_pos_right float07_augmented_lt_one (by exact_mod_cast h)
    have h4 : roundDouble (float07 * N) < (N : ℚ) := by
      rw [h2] at h1
      linarith
    have h5 : ⌊roundDouble (float07 * N)⌋₊ < N := by
      rw [Nat.floor_lt (roundDouble_nonneg _ hq.le)]
      exact h4
    omega

lemma intLog_eq_of_bounds (q : ℚ) (e : ℤ) (hq : 0 < q)
    (h1 : (2 : ℚ) ^ e ≤ q) (h2 : q < 2 ^ (e + 1)) : Int.log 2 q = e := by
  have c1 : ((2 : ℕ) : ℚ) ^ e ≤ q := by
    push_cast
    exact h1
  have c2 : q < ((2 : ℕ) : ℚ) ^ (e + 1) := by
    push_cast
    exact h2
  have hle : e ≤ Int.log 2 q := (Int.zpow_le_iff_le_log one_lt_two hq).mp c1
  have hlt : Int.log 2 q < e + 1 := (Int.lt_zpow_iff_log_lt one_lt_two hq).mp c2
  omega

lemma rne_eq_floor (x : ℚ) (h : x - (⌊x⌋ : ℚ) < 1 / 2) : rne x = ⌊x⌋ := by
  unfold rne
  rw [if_pos h]

lemma rne_tie_odd (x : ℚ) (h : x - (⌊x⌋ : ℚ) = 1 / 2) (hodd : ⌊x⌋ % 2 = 1) :
    rne x = ⌊x⌋ + 1 := by
  unfold rne
  rw [if_neg (by rw [h]; norm_num), if_neg (by rw [h]; norm_num),
    if_neg (by omega)]

lemma trainingExamplesCount_ninety : trainingExamplesCount 90 = 62 := by
  have hq : float07 * ((90 : ℕ) : ℚ) = 141863388262170615 / 2 ^ 51 := by
    rw [float07]
    push_cast
    norm_num
  have hlog : Int.log 2 ((141863388262170615 : ℚ) / 2 ^ 51) = 5 :=
    intLog_eq_of_bounds _ 5 (by norm_num) (by norm_num) (by norm_num)
  have harg : (141863388262170615 / 2 ^ 51 : ℚ) * 2 ^ ((52 : ℤ) - 5)
      = 141863388262170615 / 16 := by norm_num
  have hfl : ⌊(141863388262170615 / 16 : ℚ)⌋ = 8866461766385663 := by norm_num
  have hrne : rne (141863388262170615 / 16 : ℚ) = 8866461766385663 := by
    rw [rne_eq_floor _ (by rw [hfl]; norm_num), hfl]
  unfold trainingExamplesCount roundDouble
  rw [hq, if_neg (by norm_num), hlog, harg, hrne, ← Int.floor_toNat]
  norm_num
  rfl

lemma trainingExamplesCount_ten : trainingExamplesCount 10 = 7 := by
  have hq : float07 * ((10 : ℕ) : ℚ) = 15762598695796735 / 2 ^ 51 := by
    rw [float07]
    push_cast
    norm_num
  have hlog : Int.log 2 ((15762598695796735 : ℚ) / 2 ^ 51) = 2 :=
    intLog_eq_of_bounds _ 2 (by norm_num) (by norm_num) (by norm_num)
  have harg : (15762598695796735 / 2 ^ 51 : ℚ) * 2 ^ ((52 : ℤ) - 2)
      = 15762598695796735 / 2 := by norm_num
  have hfl : ⌊(15762598695796735 / 2 : ℚ)⌋ = 7881299347898367 := by norm_num
  have hrne : rne (15762598695796735 / 2 : ℚ) = 7881299347898368 := by
    rw [rne_tie_odd _ (by rw [hfl]; norm_num) (by rw [hfl]; norm_num), hfl]
    norm_num
  unfold trainingExamplesCount roundDouble
  rw [hq, if_neg (by norm_num), hlog, harg, hrne, ← Int.floor_toNat]
  norm_num
  rfl

/-- Counterexample to C2 as stated: at `N = 90` the source's
`int(0.7 * images_count)` gives 62 training examples, not
`⌊0.7·90⌋ = 63` — the IEEE-double product `0.7 * 90` is
`62.99999999999999…`, strictly below 63, so truncation lands on 62 and the
training partition of a 90-element dataset has 62 elements, not 63. -/
theorem split_floor_claim_fails_at_ninety :
    trainingExamplesCount 90 = 62 ∧ 7 * 90 / 10 = 63 ∧
      (npSplit (List.range 90) (trainingExamplesCount 90)).1.length = 62 := by
  refine ⟨trainingExamplesCount_ninety, by norm_num, ?_⟩
  simp [npSplit, List.length_take, trainingExamplesCount_ninety]

/-- C2 (amended): the preparation notebook splits a dataset of size `N` at
index `trainingExamplesCount N` — `int` of the IEEE-double product
`0.7 * N`, which is at most `N` but can fall one below `⌊0.7·N⌋`. The
training part is exactly the first `trainingExamplesCount N` elements in
the existing order, the two parts have `trainingExamplesCount N` and
`testExamplesCount N` elements, their sizes add up to `N`, concatenating
train then test reproduces the dataset, and a 10-example dataset still
yields 7 training and 3 test examples (the double product `0.7 * 10`
rounds to exactly `7.0`). -/
theorem split_takes_first_train_count {α : Type} (xs : List α) :
    (npSplit xs (trainingExamplesCount xs.length)).1
        = xs.take (trainingExamplesCount xs.length) ∧
      (npSplit xs (trainingExamplesCount xs.length)).1.length
        = trainingExamplesCount xs.length ∧
      (npSplit xs (trainingExamplesCount xs.length)).2.length
        = testExamplesCount xs.length ∧
      (npSplit xs (trainingExamplesCount xs.length)).1.length
          + (npSplit xs (trainingExamplesCount xs.length)).2.length
        = xs.length ∧
      (npSplit xs (trainingExamplesCount xs.length)).1
          ++ (npSplit xs (trainingExamplesCount xs.length)).2
        = xs ∧
      trainingExamplesCount 10 = 7 ∧ testExamplesCount 10 = 3 := by
  have hle := trainingExamplesCount_le xs.length
  refine ⟨rfl, ?_, ?_, ?_, List.take_append_drop _ _, trainingExamplesCount_ten,
    by simp [testExamplesCount, trainingExamplesCount_ten]⟩
  · simp [npSplit, List.length_take]
    omega
  · simp [npSplit, List.length_drop, testExamplesCount]
  · simp [npSplit, List.length_take, List.length_drop]
    omega

/-- The label-bootstrapping cell of the preparation notebook: if
`labels.csv` does not exist, it is written with one row `(filename, 0)`
per file listed in `images_dir`, in listing order; otherwise the cell
only prints a message and the file is left untouched. The state the cell
touches is the optional content of `labels.csv`. -/
def bootstrapLabels (imageFiles : List String)
    (labelsFile : Option (List (String × ℕ))) :
    Option (List (String × ℕ)) :=
  match labelsFile with
  | none => some (imageFiles.map fun f => (f, 0))
  | some rows => some rows

/-- C9: when the label file is absent the cell creates it with one
zero-labelled row per listed file; when it is present the cell leaves it
exactly as it was; hence running the cell twice equals running it once. -/
theorem bootstrapLabels_bootstrap_and_idempotent (imageFiles : List String)
    (rows : List (String × ℕ)) (s : Option (List (String × ℕ))) :
    bootstrapLabels imageFiles none = some (imageFiles.map fun f => (f, 0)) ∧
      bootstrapLabels imageFiles (some rows) = some rows ∧
      bootstrapLabels imageFiles (bootstrapLabels imageFiles s)
        = bootstrapLabels imageFiles s := by
  refine ⟨rfl, rfl, ?_⟩
  cases s <;> rfl

/-- The image-ingestion loop of the preparation notebook:
`for filename in data.file_name: ... images = np.append([image], images, axis=0)`
— each decoded, resized image is prepended to the accumulated array.
`decode` abstracts `plt.imread` followed by `skimage.transform.resize`;
`rows` are the rows of `labels.csv` in file order. -/
def buildImages {Img L : Type} (decode : String → Img)
    (rows : List (String × L)) : List Img :=
  rows.foldl (fun acc r => decode r.1 :: acc) []

/-- The label-ingestion loop of the preparation notebook:
`for is_guitar in data.is_guitar: labels = np.append([is_guitar], labels)`
— each label is prepended to the accumulated array. -/
def buildLabels {L : Type} (rows : List (String × L)) : List L :=
  rows.foldl (fun acc r => r.2 :: acc) []

lemma foldl_cons_eq_reverse_map {α β : Type} (f : α → β) (l : List α)
    (acc : List β) :
    l.foldl (fun acc x => f x :: acc) acc = (l.map f).reverse ++ acc := by
  induction l generalizing acc with
  | nil => simp
  | cons x xs ih => simp [ih]

/-- C10: both ingestion loops prepend, so the assembled image list and
label list are the label-file rows in reverse order; the reversal is the
same on both sides, so position `i` of the images and position `i` of the
labels come from the same row: zipping them gives exactly the reversed
row list with each row's file decoded and its label kept. -/
theorem ingestion_reverses_rows_but_stays_aligned {Img L : Type}
    (decode : String → Img) (rows : List (String × L)) :
    buildImages decode rows = (rows.map fun r => decode r.1).reverse ∧
      buildLabels rows = (rows.map fun r => r.2).reverse ∧
      (buildImages decode rows).zip (buildLabels rows)
        = rows.reverse.map fun r => (decode r.1, r.2) := by
  have h1 : buildImages decode rows = (rows.map fun r => decode r.1).reverse := by
    simpa using foldl_cons_eq_reverse_map (fun r => decode r.1) rows []
  have h2 : buildLabels rows = (rows.map fun r => r.2).reverse := by
    simpa using foldl_cons_eq_reverse_map (fun r => r.2) rows []
  refine ⟨h1, h2, ?_⟩
  rw [h1, h2, ← List.map_reverse, ← List.map_reverse, List.zip_map']

end GuitarLR
